import Mathlib

/-!
Verification of the checkbook ledger program (`checkbook.py`).

Embedding conventions:
* Python `Decimal` amounts are exact decimal numbers; every amount a run of
  the program handles is an integer multiple of the smallest decimal unit in
  play, so we embed monetary values as `Int` (that many units;
  `Decimal(str(t["amount"]))` is assumed to parse).  All the ledger's
  arithmetic - sums, negation, comparison with zero - is carried out exactly
  in both representations.
* A transaction dict becomes the record `Txn`; `t.get("cleared")` /
  `t.get("deleted")` truthiness becomes the corresponding `Bool` field.
* The ledger's visible list `self.transactions` is a Python list of
  *references* to the same dict objects stored in `account["transactions"]`.
  We model a reference as an index into the backing list: `Ledger.backing`
  is the account's transaction list and `Ledger.visible` the list of indices
  the visible list points at.  `t["deleted"] = True` on a visible entry thus
  becomes an update of the backing list at that index.
* Python list indexing `xs[i]` accepts negative indices (counting from the
  end) and raises `IndexError` otherwise; `pyIndex` captures this.
* The interactive session's prompts are modelled by passing the user's
  response strings as explicit arguments, and the module-level `TODAY`
  constant is passed explicitly where it is consulted.
-/

structure Txn where
  date : String
  description : String
  category : Option String
  amount : Int
  cleared : Bool
  deleted : Bool
deriving DecidableEq

def defaultTxn : Txn :=
  { date := "", description := "", category := none, amount := 0,
    cleared := false, deleted := false }

structure Account where
  initial_balance : Int
  transactions : List Txn
deriving DecidableEq

/-- Python list indexing: `0 ≤ i < len` addresses directly, `-len ≤ i < 0`
addresses from the end, anything else raises `IndexError` (`none`). -/
def pyIndex (len : Nat) (i : Int) : Option Nat :=
  if 0 ≤ i then
    if i < (len : Int) then some i.toNat else none
  else
    if -(len : Int) ≤ i then some (i + (len : Int)).toNat else none

/-- The `Ledger` of `checkbook.py`: `backing` is `self.account["transactions"]`,
`visible` is `self.transactions` (a list of references into the backing list,
modelled as indices), `initial_balance` is `self.initial_balance`. -/
structure Ledger where
  backing : List Txn
  visible : List Nat
  initial_balance : Int
deriving DecidableEq

/-- Indices (in order) of the non-deleted entries of `ts`, starting the count
at `k`; models `[t for t in account.get("transactions", []) if not t.get("deleted")]`
as the list of references it produces. -/
def nonDeletedIdxs : List Txn → Nat → List Nat
  | [], _ => []
  | t :: ts, k =>
    if t.deleted then nonDeletedIdxs ts (k + 1) else k :: nonDeletedIdxs ts (k + 1)

/-- `Ledger.__init__`. -/
def Ledger.init (a : Account) : Ledger :=
  { backing := a.transactions,
    visible := nonDeletedIdxs a.transactions 0,
    initial_balance := a.initial_balance }

/-- The visible transactions `self.transactions`, as values. -/
def Ledger.transactions (l : Ledger) : List Txn :=
  l.visible.map (fun i => l.backing.getD i defaultTxn)

/-- `Ledger.register_balance`. -/
def Ledger.register_balance (l : Ledger) : Int :=
  l.initial_balance + (l.transactions.map (fun t => t.amount)).sum

/-- The accumulation loop of `Ledger.running_balance`. -/
def runningFrom (bal : Int) : List Txn → List Int
  | [] => []
  | t :: ts => (bal + t.amount) :: runningFrom (bal + t.amount) ts

/-- `Ledger.running_balance`. -/
def Ledger.running_balance (l : Ledger) : List Int :=
  runningFrom l.initial_balance l.transactions

structure ReconcileResult where
  bank_balance : Int
  uncleared_checks : Int
  uncleared_deposits : Int
  ending_balance : Int
  register_balance : Int
  difference : Int
deriving DecidableEq

/-- `Ledger.reconcile`. -/
def Ledger.reconcile (l : Ledger) (bank_balance : Int) : ReconcileResult :=
  let uncleared_checks :=
    ((l.transactions.filter (fun t => !t.cleared && decide (t.amount < 0))).map
      (fun t => -t.amount)).sum
  let uncleared_deposits :=
    ((l.transactions.filter (fun t => !t.cleared && decide ((0 : Int) < t.amount))).map
      (fun t => t.amount)).sum
  let ending_balance := bank_balance - uncleared_checks + uncleared_deposits
  let difference := ending_balance - l.register_balance
  { bank_balance := bank_balance,
    uncleared_checks := uncleared_checks,
    uncleared_deposits := uncleared_deposits,
    ending_balance := ending_balance,
    register_balance := l.register_balance,
    difference := difference }

/-- `Ledger.add_transaction`: append to the backing list and append (a
reference to) the new record to the visible list. -/
def Ledger.add_transaction (l : Ledger) (t : Txn) : Ledger :=
  { backing := l.backing ++ [t],
    visible := l.visible ++ [l.backing.length],
    initial_balance := l.initial_balance }

/-- `t["deleted"] = True`. -/
def markDeleted (t : Txn) : Txn := { t with deleted := true }

/-- `Ledger.delete_transaction`: `t = self.transactions[idx]` (Python
indexing, `IndexError` = `none`), `t["deleted"] = True` (an in-place update
of the shared record, i.e. of the backing list), `self.transactions.pop(idx)`. -/
def Ledger.delete_transaction (l : Ledger) (i : Int) : Option Ledger :=
  match pyIndex l.visible.length i with
  | none => none
  | some n =>
    let j := l.visible.getD n 0
    some { backing := l.backing.set j (markDeleted (l.backing.getD j defaultTxn)),
           visible := l.visible.eraseIdx n,
           initial_balance := l.initial_balance }

/-- Well-formedness that the program maintains for every ledger it builds:
every visible reference points into the backing list, and the visible list
holds pairwise distinct references. -/
def LedgerWf (l : Ledger) : Prop :=
  (∀ i ∈ l.visible, i < l.backing.length) ∧ l.visible.Nodup

instance (l : Ledger) : Decidable (LedgerWf l) := by
  unfold LedgerWf; infer_instance

/-! ### The visible list of a freshly constructed ledger -/

theorem nonDeletedIdxs_map_getD (ts : List Txn) : ∀ pre : List Txn,
    (nonDeletedIdxs ts pre.length).map (fun i => (pre ++ ts).getD i defaultTxn)
      = ts.filter (fun t => !t.deleted) := by
  induction ts with
  | nil => intro pre; rfl
  | cons t ts ih =>
    intro pre
    have hassoc : pre ++ t :: ts = (pre ++ [t]) ++ ts := by simp
    have hlen : (pre ++ [t]).length = pre.length + 1 := by simp
    have hhead : (pre ++ t :: ts).getD pre.length defaultTxn = t := by
      simp [List.getD, List.getElem?_append_right (le_refl pre.length)]
    have htail := ih (pre ++ [t])
    rw [hlen, ← hassoc] at htail
    by_cases h : t.deleted
    · simp only [nonDeletedIdxs, h, if_true, htail, List.filter_cons, Bool.not_true]
      simp
    · have hb : t.deleted = false := by simpa using h
      simp only [nonDeletedIdxs, hb, Bool.false_eq_true, if_false, List.map_cons]
      rw [hhead, htail, List.filter_cons]
      simp [hb]

theorem ledger_init_transactions (a : Account) :
    (Ledger.init a).transactions = a.transactions.filter (fun t => !t.deleted) := by
  have h := nonDeletedIdxs_map_getD a.transactions []
  simpa [Ledger.transactions, Ledger.init] using h

/-- Claim C2: `register_balance` of a ledger built from any account equals the
initial balance plus the sum of amounts of exactly the non-deleted
transactions; the embedding is a pure function, so it modifies nothing. -/
theorem register_balance_eq_initial_plus_nondeleted_sum (a : Account) :
    (Ledger.init a).register_balance
      = a.initial_balance
        + ((a.transactions.filter (fun t => !t.deleted)).map (fun t => t.amount)).sum := by
  rw [Ledger.register_balance, ledger_init_transactions a]
  rfl

/-- Claim C1: the parts of `reconcile` on a ledger built from any account, in
terms of the account's non-deleted transactions: uncleared checks are the
negated sums of the strictly negative uncleared amounts, uncleared deposits
the sums of the strictly positive uncleared amounts (an amount that is
exactly zero enters neither bucket), the ending balance is
`bank − unclearedChecks + unclearedDeposits`, the difference is
`endingBalance − registerBalance()`, and the register balance (which does
count zero-amount transactions) is the initial balance plus the sum of all
non-deleted amounts. -/
theorem reconcile_matches_account_sums (a : Account) (bank : Int) :
    ((Ledger.init a).reconcile bank).uncleared_checks
        = (((a.transactions.filter (fun t => !t.deleted)).filter
            (fun t => !t.cleared && decide (t.amount < 0))).map (fun t => -t.amount)).sum
    ∧ ((Ledger.init a).reconcile bank).uncleared_deposits
        = (((a.transactions.filter (fun t => !t.deleted)).filter
            (fun t => !t.cleared && decide ((0 : Int) < t.amount))).map (fun t => t.amount)).sum
    ∧ ((Ledger.init a).reconcile bank).ending_balance
        = bank - ((Ledger.init a).reconcile bank).uncleared_checks
            + ((Ledger.init a).reconcile bank).uncleared_deposits
    ∧ ((Ledger.init a).reconcile bank).difference
        = ((Ledger.init a).reconcile bank).ending_balance
            - (Ledger.init a).register_balance
    ∧ ((Ledger.init a).reconcile bank).register_balance
        = a.initial_balance
          + ((a.transactions.filter (fun t => !t.deleted)).map (fun t => t.amount)).sum := by
  refine ⟨?_, ?_, rfl, rfl, ?_⟩
  · rw [Ledger.reconcile]
    rw [ledger_init_transactions a]
  · rw [Ledger.reconcile]
    rw [ledger_init_transactions a]
  · show (Ledger.init a).register_balance = _
    exact register_balance_eq_initial_plus_nondeleted_sum a

/-! ### Running balances -/

theorem runningFrom_spec (ts : List Txn) : ∀ bal : Int,
    (runningFrom bal ts).length = ts.length
    ∧ ∀ i < ts.length,
        (runningFrom bal ts).getD i 0
          = bal + ((ts.take (i + 1)).map (fun t => t.amount)).sum := by
  induction ts with
  | nil =>
    intro bal
    exact ⟨rfl, by intro i hi; exact absurd hi (by simp)⟩
  | cons t ts ih =>
    intro bal
    refine ⟨by simp [runningFrom, (ih (bal + t.amount)).1], ?_⟩
    intro i hi
    cases i with
    | zero => simp [runningFrom]
    | succ n =>
      have h2 := (ih (bal + t.amount)).2 n (by simpa using hi)
      simp only [runningFrom, List.getD_cons_succ, List.take_succ_cons, List.map_cons,
        List.sum_cons]
      rw [h2, add_assoc]

/-- Claim C3: `running_balance` of a ledger built from any account has one
entry per non-deleted transaction, in stored order, and its `i`-th entry is
the initial balance plus the sum of the amounts of the first `i + 1`
non-deleted transactions. -/
theorem running_balance_entries (a : Account) :
    (Ledger.init a).running_balance.length
        = (a.transactions.filter (fun t => !t.deleted)).length
    ∧ ∀ i < (a.transactions.filter (fun t => !t.deleted)).length,
        (Ledger.init a).running_balance.getD i 0
          = a.initial_balance
            + (((a.transactions.filter (fun t => !t.deleted)).take (i + 1)).map
                (fun t => t.amount)).sum := by
  rw [Ledger.running_balance, ledger_init_transactions a]
  exact runningFrom_spec _ a.initial_balance

/-! ### Example fixtures (the worked example of the specification) -/

def exTxns : List Txn :=
  [{ date := "2024-01-05", description := "check", category := none,
     amount := -20, cleared := false, deleted := false },
   { date := "2024-01-10", description := "pay", category := some "Income",
     amount := 50, cleared := true, deleted := false },
   { date := "2024-01-15", description := "coffee", category := some "Food",
     amount := -5, cleared := false, deleted := false }]

def exAccount : Account := { initial_balance := 100, transactions := exTxns }

/-- Witness for claim C3 at the specification's worked example: the second
running balance is `130.00`. -/
theorem running_balance_entries_witness :
    1 < (exAccount.transactions.filter (fun t => !t.deleted)).length
    ∧ (Ledger.init exAccount).running_balance.getD 1 0 = 130 := by
  refine ⟨by decide, ?_⟩
  have h := (running_balance_entries exAccount).2 1 (by decide)
  rw [h]
  decide

/-! ### Appending and soft-deleting -/

theorem getD_append_lt (xs ys : List Txn) (i : Nat) (h : i < xs.length) :
    (xs ++ ys).getD i defaultTxn = xs.getD i defaultTxn := by
  simp [List.getD, List.getElem?_append, h]

theorem getD_append_len (xs : List Txn) (t : Txn) :
    (xs ++ [t]).getD xs.length defaultTxn = t := by
  simp [List.getD, List.getElem?_append_right (le_refl xs.length)]

theorem add_transaction_transactions (l : Ledger) (t : Txn)
    (hwf : ∀ i ∈ l.visible, i < l.backing.length) :
    (l.add_transaction t).transactions = l.transactions ++ [t] := by
  unfold Ledger.add_transaction Ledger.transactions
  rw [List.map_append]
  congr 1
  · exact List.map_congr_left (fun i hi => getD_append_lt _ _ _ (hwf i hi))
  · simp [getD_append_len]

/-- Claim C5: adding a transaction appends it to the account's backing
sequence and to the end of the visible sequence; the freshly appended record
(the reference `l.backing.length`) occurs exactly once in the visible
sequence; and the register balance grows by exactly the new amount. -/
theorem add_transaction_spec (l : Ledger) (t : Txn)
    (hwf : ∀ i ∈ l.visible, i < l.backing.length) :
    (l.add_transaction t).backing = l.backing ++ [t]
    ∧ (l.add_transaction t).transactions = l.transactions ++ [t]
    ∧ (l.add_transaction t).visible.count l.backing.length = 1
    ∧ (l.add_transaction t).register_balance = l.register_balance + t.amount := by
  refine ⟨rfl, add_transaction_transactions l t hwf, ?_, ?_⟩
  · have h0 : l.visible.count l.backing.length = 0 := by
      rw [List.count_eq_zero]
      intro hmem
      exact absurd (hwf _ hmem) (lt_irrefl _)
    simp [Ledger.add_transaction, h0]
  · rw [Ledger.register_balance, Ledger.register_balance,
      add_transaction_transactions l t hwf]
    rw [List.map_append, List.sum_append]
    simp [Ledger.add_transaction, add_assoc]

def newTxn : Txn :=
  { date := "2024-02-01", description := "deposit", category := none,
    amount := 40, cleared := false, deleted := false }

/-- Witness for claim C5: a well-formed concrete ledger, on which adding a
transaction raises the register balance by its amount. -/
theorem add_transaction_spec_witness :
    (∀ i ∈ (Ledger.init exAccount).visible, i < (Ledger.init exAccount).backing.length)
    ∧ ((Ledger.init exAccount).add_transaction newTxn).register_balance
        = (Ledger.init exAccount).register_balance + newTxn.amount :=
  ⟨by decide, (add_transaction_spec (Ledger.init exAccount) newTxn (by decide)).2.2.2⟩

theorem getD_mem_of_lt {α : Type} (l : List α) (n : Nat) (d : α) (h : n < l.length) :
    l.getD n d ∈ l := by
  have h2 : l.getD n d = l[n] := by
    simp [List.getD, List.getElem?_eq_getElem h]
  rw [h2]
  exact List.getElem_mem h

theorem nodup_getD_not_mem_eraseIdx (xs : List Nat) (n : Nat)
    (hn : n < xs.length) (hnd : xs.Nodup) :
    xs.getD n 0 ∉ xs.eraseIdx n := by
  induction xs generalizing n with
  | nil => simp at hn
  | cons x xs ih =>
    cases n with
    | zero =>
      simp only [List.getD_cons_zero, List.eraseIdx_cons_zero]
      exact (List.nodup_cons.mp hnd).1
    | succ m =>
      simp only [List.getD_cons_succ, List.eraseIdx_cons_succ, List.mem_cons]
      push_neg
      refine ⟨?_, ih m (by simpa using hn) (List.nodup_cons.mp hnd).2⟩
      intro heq
      exact (List.nodup_cons.mp hnd).1
        (heq ▸ getD_mem_of_lt xs m 0 (by simpa using hn))

theorem map_eraseIdx_comm {α β : Type} (f : α → β) (l : List α) (n : Nat) :
    (l.eraseIdx n).map f = (l.map f).eraseIdx n := by
  induction l generalizing n with
  | nil => simp
  | cons x xs ih =>
    cases n with
    | zero => simp
    | succ m => simp [ih]

theorem pyIndex_some_lt {len : Nat} {i : Int} {n : Nat}
    (h : pyIndex len i = some n) : n < len := by
  unfold pyIndex at h
  split_ifs at h with h1 h2 h3 <;>
    first
      | (injection h with h4; omega)
      | (exact absurd h (by simp))

theorem pyIndex_eq_none_iff (len : Nat) (i : Int) :
    pyIndex len i = none ↔ (i < -(len : Int) ∨ (len : Int) ≤ i) := by
  unfold pyIndex
  split_ifs with h1 h2 h3 <;> simp <;> omega

theorem pyIndex_of_nonneg {len : Nat} {i : Int} (h0 : 0 ≤ i) (h1 : i < (len : Int)) :
    pyIndex len i = some i.toNat := by
  unfold pyIndex
  split_ifs <;> first | rfl | omega

theorem pyIndex_of_neg {len : Nat} {i : Int} (h0 : -(len : Int) ≤ i) (h1 : i < 0) :
    pyIndex len i = some (i + (len : Int)).toNat := by
  unfold pyIndex
  split_ifs <;> first | rfl | omega

theorem getD_set_self (xs : List Txn) (j : Nat) (v : Txn) (h : j < xs.length) :
    (xs.set j v).getD j defaultTxn = v := by
  simp [List.getD, List.getElem?_set_self, h]

theorem getD_set_ne (xs : List Txn) (j k : Nat) (v : Txn) (h : j ≠ k) :
    (xs.set j v).getD k defaultTxn = xs.getD k defaultTxn := by
  simp [List.getD, List.getElem?_set_ne h]

/-- Claim C4 (amended): `delete_transaction` follows Python list-index
semantics.  For every index that Python accepts (`0 ≤ i < len`, or
`-len ≤ i < 0` which addresses position `len + i` from the end) the deletion
succeeds: the corresponding record in the account's backing store is marked
`deleted = true` in place (no other backing record changes and the backing
store keeps its length - soft delete, never a hard erase) and the entry is
removed from the visible sequence.  Exactly the indices with `i < -len` or
`i ≥ len` fail with `IndexError`; a negative index in `[-len, -1]` does NOT
fail, contrary to the claim as stated. -/
theorem delete_transaction_python_index_spec (l : Ledger) (i : Int) (hwf : LedgerWf l) :
    (∀ n, pyIndex l.visible.length i = some n →
      ∃ l', l.delete_transaction i = some l'
        ∧ l'.backing.length = l.backing.length
        ∧ l'.backing.getD (l.visible.getD n 0) defaultTxn
            = markDeleted (l.backing.getD (l.visible.getD n 0) defaultTxn)
        ∧ (∀ j, j ≠ l.visible.getD n 0 →
            l'.backing.getD j defaultTxn = l.backing.getD j defaultTxn)
        ∧ l'.transactions = l.transactions.eraseIdx n)
    ∧ (pyIndex l.visible.length i = none → l.delete_transaction i = none)
    ∧ (pyIndex l.visible.length i = none ↔
        (i < -(l.visible.length : Int) ∨ (l.visible.length : Int) ≤ i))
    ∧ (0 ≤ i → i < (l.visible.length : Int) →
        pyIndex l.visible.length i = some i.toNat)
    ∧ (-(l.visible.length : Int) ≤ i → i < 0 →
        pyIndex l.visible.length i = some (i + (l.visible.length : Int)).toNat) := by
  refine ⟨?_, ?_, pyIndex_eq_none_iff _ _,
    fun h0 h1 => pyIndex_of_nonneg h0 h1, fun h0 h1 => pyIndex_of_neg h0 h1⟩
  · intro n hpy
    have hn : n < l.visible.length := pyIndex_some_lt hpy
    have hjmem : l.visible.getD n 0 ∈ l.visible := getD_mem_of_lt l.visible n 0 hn
    have hjlt : l.visible.getD n 0 < l.backing.length := hwf.1 _ hjmem
    refine ⟨{ backing := l.backing.set (l.visible.getD n 0)
                (markDeleted (l.backing.getD (l.visible.getD n 0) defaultTxn)),
              visible := l.visible.eraseIdx n,
              initial_balance := l.initial_balance }, ?_, by simp, ?_, ?_, ?_⟩
    · unfold Ledger.delete_transaction
      rw [hpy]
    · exact getD_set_self l.backing _ _ hjlt
    · intro j hne
      exact getD_set_ne l.backing _ j _ (Ne.symm hne)
    · show (l.visible.eraseIdx n).map
          (fun idx => (l.backing.set (l.visible.getD n 0)
            (markDeleted (l.backing.getD (l.visible.getD n 0) defaultTxn))).getD idx defaultTxn)
        = (l.visible.map (fun idx => l.backing.getD idx defaultTxn)).eraseIdx n
      rw [← map_eraseIdx_comm]
      apply List.map_congr_left
      intro idx hidx
      have hne : idx ≠ l.visible.getD n 0 := by
        intro he
        exact nodup_getD_not_mem_eraseIdx l.visible n hn hwf.2 (he ▸ hidx)
      exact getD_set_ne l.backing _ idx _ (Ne.symm hne)
  · intro hpy
    unfold Ledger.delete_transaction
    rw [hpy]

/-- Counterexample for claim C4 as stated: deleting at the negative index
`-1` on a ledger with three visible transactions does not fail - Python
negative indexing deletes the last visible transaction. -/
theorem delete_transaction_negative_index_succeeds :
    ((Ledger.init exAccount).delete_transaction (-1)).isSome = true := by decide

/-- Witness for claim C4 (amended) on a concrete well-formed ledger: index 5
is rejected, index 1 deletes the second visible transaction. -/
theorem delete_transaction_python_index_spec_witness :
    LedgerWf (Ledger.init exAccount)
    ∧ (Ledger.init exAccount).delete_transaction 5 = none
    ∧ ∃ l', (Ledger.init exAccount).delete_transaction 1 = some l'
        ∧ l'.transactions = (Ledger.init exAccount).transactions.eraseIdx 1 := by
  have h1 := delete_transaction_python_index_spec (Ledger.init exAccount) 1 (by decide)
  have h5 := delete_transaction_python_index_spec (Ledger.init exAccount) 5 (by decide)
  refine ⟨by decide, h5.2.1 (by decide), ?_⟩
  obtain ⟨l', hdel, _, _, _, htx⟩ := h1.1 1 (by decide)
  exact ⟨l', hdel, htx⟩

/-! ### The interactive session: state and cursor commands -/

/-- The mutable locals of `launch_tui` that the navigation commands touch:
the visible transaction list `txns`, the cursor `idx`, and `scroll`.  Python
keeps `idx` as a plain int, so it is an `Int` here. -/
structure TuiState where
  txns : List Txn
  idx : Int
  scroll : Int
deriving DecidableEq

/-- Python `range(a, b)` (step 1). -/
def intRange (a b : Int) : List Int :=
  (List.range (b - a).toNat).map (fun (k : Nat) => a + (k : Int))

/-- `txns[i]` with Python indexing, as used by loops whose index is always
in range; out-of-range reads (never exercised under the theorems'
hypotheses) fall back to `defaultTxn`. -/
def pyGetD (l : List Txn) (i : Int) : Txn :=
  ((pyIndex l.length i).map (fun n => l.getD n defaultTxn)).getD defaultTxn

/-- `idx_set` of `checkbook.py`: move the cursor and recentre the view. -/
def idx_set (s : TuiState) (n : Int) : TuiState :=
  { s with idx := n, scroll := n }

/-- `jump_next_uncleared`: `for i in range(idx + 1, len(txns))` then
`for i in range(0, idx + 1)`, jumping to the first `i` with
`not txns[i].get("cleared")`; each loop is a first-match scan. -/
def jump_next_uncleared (s : TuiState) : TuiState :=
  match (intRange (s.idx + 1) s.txns.length).find?
      (fun i => !(pyGetD s.txns i).cleared) with
  | some i => idx_set s i
  | none =>
    match (intRange 0 (s.idx + 1)).find? (fun i => !(pyGetD s.txns i).cleared) with
    | some i => idx_set s i
    | none => s

/-- `jump_prev_uncleared`: `for i in range(idx - 1, -1, -1)` then
`for i in range(len(txns) - 1, idx - 1, -1)`; Python's
`range(x, y, -1)` enumerates `reversed(range(y + 1, x + 1))`. -/
def jump_prev_uncleared (s : TuiState) : TuiState :=
  match ((intRange 0 s.idx).reverse).find? (fun i => !(pyGetD s.txns i).cleared) with
  | some i => idx_set s i
  | none =>
    match ((intRange s.idx s.txns.length).reverse).find?
        (fun i => !(pyGetD s.txns i).cleared) with
    | some i => idx_set s i
    | none => s

/-- `KEY_DOWN` / `j`: `if idx < len(txns) - 1: idx += 1`. -/
def move_down (s : TuiState) : TuiState :=
  if s.idx < (s.txns.length : Int) - 1 then { s with idx := s.idx + 1 } else s

/-- `KEY_UP` / `k`: `if idx > 0: idx -= 1`. -/
def move_up (s : TuiState) : TuiState :=
  if s.idx > 0 then { s with idx := s.idx - 1 } else s

/-- `t`: `idx = 0`. -/
def move_top (s : TuiState) : TuiState := { s with idx := 0 }

/-- `b`: `idx = len(txns) - 1`. -/
def move_bottom (s : TuiState) : TuiState :=
  { s with idx := (s.txns.length : Int) - 1 }

theorem intRange_eq_nil {a b : Int} (h : b ≤ a) : intRange a b = [] := by
  unfold intRange
  have h1 : (b - a).toNat = 0 := by omega
  rw [h1]
  rfl

theorem intRange_concat {a b : Int} (h : a ≤ b) :
    intRange a (b + 1) = intRange a b ++ [b] := by
  unfold intRange
  have h1 : (b + 1 - a).toNat = (b - a).toNat + 1 := by omega
  rw [h1, List.range_succ, List.map_append]
  simp only [List.map_cons, List.map_nil]
  congr 2
  omega

theorem intRange_cons {a b : Int} (h : a < b) :
    intRange a b = a :: intRange (a + 1) b := by
  unfold intRange
  have h1 : (b - a).toNat = (b - (a + 1)).toNat + 1 := by omega
  rw [h1, List.range_succ_eq_map, List.map_cons, List.map_map]
  congr 1
  · norm_num
  · apply List.map_congr_left
    intro k hk
    simp only [Function.comp_apply]
    push_cast
    ring

theorem find?_singleton {α : Type} (p : α → Bool) (b : α) :
    [b].find? p = if p b then some b else none := by
  cases h : p b <;> simp [List.find?, h]

theorem jump_next_uncleared_eq (s : TuiState) (h0 : 0 ≤ s.idx) :
    jump_next_uncleared s =
      match (intRange (s.idx + 1) s.txns.length ++ intRange 0 s.idx).find?
          (fun i => !(pyGetD s.txns i).cleared) with
      | some j => idx_set s j
      | none => if !(pyGetD s.txns s.idx).cleared then idx_set s s.idx else s := by
  have hsplit : intRange 0 (s.idx + 1) = intRange 0 s.idx ++ [s.idx] :=
    intRange_concat h0
  unfold jump_next_uncleared
  rw [hsplit]
  rw [List.find?_append]
  rw [List.find?_append]
  rw [find?_singleton]
  cases hA : (intRange (s.idx + 1) s.txns.length).find?
      (fun i => !(pyGetD s.txns i).cleared) with
  | some j => simp
  | none =>
    simp only [Option.none_or]
    cases hB : (intRange 0 s.idx).find? (fun i => !(pyGetD s.txns i).cleared) with
    | some j => simp
    | none =>
      simp only [Option.none_or]
      cases hP : (!(pyGetD s.txns s.idx).cleared) <;> simp

theorem jump_prev_uncleared_eq (s : TuiState) (h1 : s.idx < (s.txns.length : Int)) :
    jump_prev_uncleared s =
      match ((intRange 0 s.idx).reverse
          ++ (intRange (s.idx + 1) s.txns.length).reverse).find?
          (fun i => !(pyGetD s.txns i).cleared) with
      | some j => idx_set s j
      | none => if !(pyGetD s.txns s.idx).cleared then idx_set s s.idx else s := by
  have hsplit : (intRange s.idx s.txns.length).reverse
      = (intRange (s.idx + 1) s.txns.length).reverse ++ [s.idx] := by
    rw [intRange_cons h1, List.reverse_cons]
  unfold jump_prev_uncleared
  rw [hsplit]
  rw [List.find?_append]
  rw [List.find?_append]
  rw [find?_singleton]
  cases hA : ((intRange 0 s.idx).reverse).find?
      (fun i => !(pyGetD s.txns i).cleared) with
  | some j => simp
  | none =>
    simp only [Option.none_or]
    cases hB : ((intRange (s.idx + 1) s.txns.length).reverse).find?
        (fun i => !(pyGetD s.txns i).cleared) with
    | some j => simp
    | none =>
      simp only [Option.none_or]
      cases hP : (!(pyGetD s.txns s.idx).cleared) <;> simp

/-- Claim C6: on a non-empty ledger with a valid cursor, jump-to-next
(resp. previous) uncleared scans the circular one-pass order that starts just
after (resp. before) the cursor and excludes the cursor itself; when that
scan finds an uncleared transaction the cursor moves to the first one found
and the scroll offset is reset to the new cursor index (in particular the
scan wraps from the end back to the start), and when it finds none the
cursor does not move.  The scan lists are finite single passes, so no
infinite loop is possible with zero or all transactions uncleared. -/
theorem jump_uncleared_spec (s : TuiState) (h0 : 0 ≤ s.idx)
    (h1 : s.idx < (s.txns.length : Int)) :
    (∀ j, (intRange (s.idx + 1) s.txns.length ++ intRange 0 s.idx).find?
          (fun i => !(pyGetD s.txns i).cleared) = some j →
        (jump_next_uncleared s).idx = j ∧ (jump_next_uncleared s).scroll = j
          ∧ (pyGetD s.txns j).cleared = false)
    ∧ ((intRange (s.idx + 1) s.txns.length ++ intRange 0 s.idx).find?
          (fun i => !(pyGetD s.txns i).cleared) = none →
        (jump_next_uncleared s).idx = s.idx)
    ∧ (∀ j, ((intRange 0 s.idx).reverse
          ++ (intRange (s.idx + 1) s.txns.length).reverse).find?
          (fun i => !(pyGetD s.txns i).cleared) = some j →
        (jump_prev_uncleared s).idx = j ∧ (jump_prev_uncleared s).scroll = j
          ∧ (pyGetD s.txns j).cleared = false)
    ∧ (((intRange 0 s.idx).reverse
          ++ (intRange (s.idx + 1) s.txns.length).reverse).find?
          (fun i => !(pyGetD s.txns i).cleared) = none →
        (jump_prev_uncleared s).idx = s.idx) := by
  refine ⟨?_, ?_, ?_, ?_⟩
  · intro j hj
    rw [jump_next_uncleared_eq s h0, hj]
    refine ⟨rfl, rfl, ?_⟩
    have h2 := List.find?_some hj
    simpa using h2
  · intro hj
    rw [jump_next_uncleared_eq s h0, hj]
    cases hP : (!(pyGetD s.txns s.idx).cleared) <;> simp [idx_set]
  · intro j hj
    rw [jump_prev_uncleared_eq s h1, hj]
    refine ⟨rfl, rfl, ?_⟩
    have h2 := List.find?_some hj
    simpa using h2
  · intro hj
    rw [jump_prev_uncleared_eq s h1, hj]
    cases hP : (!(pyGetD s.txns s.idx).cleared) <;> simp [idx_set]

def exTui : TuiState := { txns := exTxns, idx := 2, scroll := 0 }

/-- Witness for claim C6: from the last uncleared transaction (index 2 of
the worked example) jump-to-next wraps around to the first uncleared
transaction (index 0) and recentres the view there. -/
theorem jump_uncleared_spec_witness :
    (0 ≤ exTui.idx ∧ exTui.idx < (exTui.txns.length : Int))
    ∧ (jump_next_uncleared exTui).idx = 0
    ∧ (jump_next_uncleared exTui).scroll = 0 := by
  have h := jump_uncleared_spec exTui (by decide) (by decide)
  have hfind : (intRange (exTui.idx + 1) exTui.txns.length
      ++ intRange 0 exTui.idx).find? (fun i => !(pyGetD exTui.txns i).cleared)
      = some 0 := by decide
  obtain ⟨ha, hb, _⟩ := h.1 0 hfind
  exact ⟨⟨by decide, by decide⟩, ha, hb⟩

/-- Counterexample for claim C8 as stated: on an empty ledger the
jump-to-bottom command is not a no-op - `idx = len(txns) - 1` sets the
cursor to `-1`, outside `[0, transactionCount - 1]`. -/
theorem move_bottom_empty_not_noop :
    move_bottom { txns := [], idx := 0, scroll := 0 }
      ≠ { txns := [], idx := 0, scroll := 0 }
    ∧ (move_bottom { txns := [], idx := 0, scroll := 0 }).idx = -1 := by
  exact ⟨by decide, by decide⟩

/-- Claim C8 (amended): with a valid cursor on a non-empty ledger each of
the four cursor-movement commands keeps the cursor within
`[0, transactionCount - 1]`; on an empty ledger (cursor at its initial 0)
move-down, move-up and jump-to-top are no-ops, but jump-to-bottom sets the
cursor to `-1`. -/
theorem cursor_moves_spec (s : TuiState) :
    (0 ≤ s.idx → s.idx < (s.txns.length : Int) →
      (0 ≤ (move_down s).idx ∧ (move_down s).idx < (s.txns.length : Int))
      ∧ (0 ≤ (move_up s).idx ∧ (move_up s).idx < (s.txns.length : Int))
      ∧ (0 ≤ (move_top s).idx ∧ (move_top s).idx < (s.txns.length : Int))
      ∧ (0 ≤ (move_bottom s).idx ∧ (move_bottom s).idx < (s.txns.length : Int)))
    ∧ (s.txns = [] → s.idx = 0 →
      move_down s = s ∧ move_up s = s ∧ move_top s = s
      ∧ (move_bottom s).idx = -1) := by
  constructor
  · intro ha hb
    refine ⟨?_, ?_, ?_, ?_⟩
    · unfold move_down
      split_ifs <;> constructor <;> (try simp) <;> omega
    · unfold move_up
      split_ifs <;> constructor <;> (try simp) <;> omega
    · unfold move_top
      constructor <;> simp <;> omega
    · unfold move_bottom
      constructor <;> simp <;> omega
  · intro he hi
    obtain ⟨txns, idx, scroll⟩ := s
    simp only at he hi
    subst he
    subst hi
    refine ⟨?_, ?_, ?_, ?_⟩ <;> simp [move_down, move_up, move_top, move_bottom]

/-- Witness for claim C8 (amended) at a concrete non-empty state with a
valid cursor: moving down keeps the cursor in range. -/
theorem cursor_moves_spec_witness :
    (0 ≤ exTui.idx ∧ exTui.idx < (exTui.txns.length : Int))
    ∧ 0 ≤ (move_down exTui).idx
    ∧ (move_down exTui).idx < (exTui.txns.length : Int) := by
  have h := (cursor_moves_spec exTui).1 (by decide) (by decide)
  exact ⟨⟨by decide, by decide⟩, h.1.1, h.1.2⟩

/-! ### The edit-transaction command -/

/-- Python `str.strip()`: drop leading and trailing whitespace. -/
def pyStrip (s : String) : String :=
  String.mk (((s.data.dropWhile Char.isWhitespace).reverse.dropWhile
    Char.isWhitespace).reverse)

/-- `today_if_dot`, with the module constant `TODAY` passed explicitly:
`TODAY if s.strip() == "." else s.strip()`. -/
def today_if_dot (today s : String) : String :=
  if pyStrip s = "." then today else pyStrip s

/-- A transaction record as the dict stores it for editing purposes: the
`amount` field is the raw text held in the dict - `edit_transaction` writes
the response string into the dict without parsing it. -/
structure TxnRec where
  date : String
  description : String
  category : Option String
  amount : String
  cleared : Bool
  deleted : Bool
deriving DecidableEq

/-- The four responses the user gives to the `edit_transaction` prompts, in
prompt order. -/
structure EditResponses where
  date : String
  description : String
  category : String
  amount : String
deriving DecidableEq

/-- `edit_transaction`: for each field in order,
`s = prompt(...).strip(); if s:` then `t[field] = today_if_dot(s)` for the
date, `t[field] = None if s == " " else s` for the category, and
`t[field] = s` otherwise; an empty (after stripping) response skips the
assignment. -/
def edit_transaction (today : String) (t : TxnRec) (r : EditResponses) : TxnRec :=
  let t1 := if pyStrip r.date ≠ "" then
      { t with date := today_if_dot today (pyStrip r.date) } else t
  let t2 := if pyStrip r.description ≠ "" then
      { t1 with description := pyStrip r.description } else t1
  let t3 := if pyStrip r.category ≠ "" then
      { t2 with category := if pyStrip r.category = " " then none
          else some (pyStrip r.category) }
    else t2
  if pyStrip r.amount ≠ "" then { t3 with amount := pyStrip r.amount } else t3

/-- Claim C7 (code bug): the single-space category sentinel is dead code.
`edit_transaction` strips the response before the emptiness test, so a
response consisting of one space becomes the empty string, the assignment is
skipped, and the category stays `some "Food"` instead of being cleared to
uncategorized as the claim (and the code's own `None if s == " " else s`
branch) intends. -/
theorem edit_single_space_category_unchanged :
    (edit_transaction "2026-10-12"
      { date := "2024-01-05", description := "coffee", category := some "Food",
        amount := "-5", cleared := false, deleted := false }
      { date := "", description := "", category := " ", amount := "" }).category
      = some "Food" := by decide

/-! ### The Find command -/

/-- Outcome of one run of the `find_next` loop: the cursor jumps to `i`
(`found`), the scan completes without a match (`notFound`, cursor
unchanged), the loop raises `IndexError` reading `txns[i]`
(`indexError`), or the modelling fuel ran out (`outOfFuel`; the
termination theorem shows this never happens with the fuel `find_next`
supplies). -/
inductive FindRes where
  | found (i : Int)
  | notFound
  | indexError (i : Int)
  | outOfFuel
deriving DecidableEq

/-- The `while True` loop of `find_next`: if `start >= len(txns)` then break
when already wrapped, else restart at 0 with `wrapped = True` and fall
through; read `txns[start]` (Python indexing; failure is `IndexError`); stop
on a match, else `start += 1` and iterate.  The match test
`search.lower() in json.dumps(txns[start]).lower()` is abstracted as the
boolean predicate `matchesTxn`. -/
def find_loop (txns : List Txn) (matchesTxn : Txn → Bool) :
    Nat → Int → Bool → FindRes
  | 0, _, _ => FindRes.outOfFuel
  | fuel + 1, start, wrapped =>
    if (txns.length : Int) ≤ start ∧ wrapped = true then FindRes.notFound
    else
      let start2 : Int := if (txns.length : Int) ≤ start then 0 else start
      let wrapped2 : Bool := if (txns.length : Int) ≤ start then true else wrapped
      match pyIndex txns.length start2 with
      | none => FindRes.indexError start2
      | some n =>
        if matchesTxn (txns.getD n defaultTxn) then FindRes.found start2
        else find_loop txns matchesTxn fuel (start2 + 1) wrapped2

/-- `find_next(search)`: `start = idx + 1; wrapped = False` then the loop.
The fuel `2 * len + 2` bounds the iteration count of any run that starts at
a non-negative cursor. -/
def find_next (txns : List Txn) (idx : Int) (matchesTxn : Txn → Bool) : FindRes :=
  find_loop txns matchesTxn (2 * txns.length + 2) (idx + 1) false

theorem find_loop_wrapped (txns : List Txn) (m : Txn → Bool) :
    ∀ fuel : Nat, ∀ start : Int, 0 ≤ start → start ≤ (txns.length : Int) →
    ((txns.length : Int) - start).toNat < fuel →
    find_loop txns m fuel start true = FindRes.notFound
    ∨ ∃ j, find_loop txns m fuel start true = FindRes.found j := by
  intro fuel
  induction fuel with
  | zero => intro start h0 h1 h2; omega
  | succ fuel ih =>
    intro start h0 h1 h2
    by_cases hle : (txns.length : Int) ≤ start
    · left
      simp only [find_loop]
      rw [if_pos ⟨hle, by trivial⟩]
    · have hlt : start < (txns.length : Int) := lt_of_not_le hle
      have hpy : pyIndex txns.length start = some start.toNat :=
        pyIndex_of_nonneg h0 hlt
      simp only [find_loop]
      rw [if_neg (by intro hc; exact hle hc.1), if_neg hle, if_neg hle, hpy]
      cases hm : m (txns.getD start.toNat defaultTxn) with
      | true =>
        right
        exact ⟨start, by simp only [hm, if_true]⟩
      | false =>
        simp only [hm, Bool.false_eq_true, if_false]
        exact ih (start + 1) (by omega) (by omega) (by omega)

theorem find_loop_unwrapped (txns : List Txn) (m : Txn → Bool)
    (hne : txns.length ≠ 0) :
    ∀ fuel : Nat, ∀ start : Int, 0 ≤ start →
    ((txns.length : Int) - start).toNat + txns.length + 1 < fuel →
    find_loop txns m fuel start false = FindRes.notFound
    ∨ ∃ j, find_loop txns m fuel start false = FindRes.found j := by
  intro fuel
  induction fuel with
  | zero => intro start h0 h2; omega
  | succ fuel ih =>
    intro start h0 h2
    by_cases hle : (txns.length : Int) ≤ start
    · have hpy : pyIndex txns.length 0 = some 0 := by
        have := @pyIndex_of_nonneg txns.length 0 le_rfl (by omega)
        simpa using this
      simp only [find_loop]
      rw [if_neg (by intro hc; cases hc.2), if_pos hle, if_pos hle, hpy]
      cases hm : m (txns.getD 0 defaultTxn) with
      | true =>
        right
        exact ⟨0, by simp only [hm, if_true]⟩
      | false =>
        simp only [hm, Bool.false_eq_true, if_false]
        exact find_loop_wrapped txns m fuel 1 (by omega) (by omega) (by omega)
    · have hlt : start < (txns.length : Int) := lt_of_not_le hle
      have hpy : pyIndex txns.length start = some start.toNat :=
        pyIndex_of_nonneg h0 hlt
      simp only [find_loop]
      rw [if_neg (by intro hc; exact hle hc.1), if_neg hle, if_neg hle, hpy]
      cases hm : m (txns.getD start.toNat defaultTxn) with
      | true =>
        right
        exact ⟨start, by simp only [hm, if_true]⟩
      | false =>
        simp only [hm, Bool.false_eq_true, if_false]
        exact ih (start + 1) (by omega) (by omega)

/-- Claim C10: starting from any non-negative cursor, on a non-empty ledger
the `find_next` scan terminates within its single-wrap iteration bound
(result `found` or `notFound`, never out of fuel and never an index error),
while on an empty ledger it wraps once and then reads `txns[0]` of the empty
list, raising `IndexError` at position 0 instead of being a no-op. -/
theorem find_next_spec (txns : List Txn) (idx : Int) (matchesTxn : Txn → Bool)
    (h0 : 0 ≤ idx) :
    (txns ≠ [] →
      find_next txns idx matchesTxn = FindRes.notFound
      ∨ ∃ j, find_next txns idx matchesTxn = FindRes.found j)
    ∧ (txns = [] → find_next txns idx matchesTxn = FindRes.indexError 0) := by
  constructor
  · intro hne
    have hlen : txns.length ≠ 0 := by
      intro hc
      exact hne (List.length_eq_zero.mp hc)
    exact find_loop_unwrapped txns matchesTxn hlen (2 * txns.length + 2)
      (idx + 1) (by omega) (by omega)
  · intro he
    subst he
    have h1 : (0 : Int) ≤ idx + 1 := by omega
    show find_loop [] matchesTxn 2 (idx + 1) false = FindRes.indexError 0
    simp only [find_loop]
    rw [if_neg (by intro hc; cases hc.2), if_pos (by simpa using h1),
      if_pos (by simpa using h1)]
    simp [pyIndex]

/-- Witness for claim C10: on the worked example with the cursor at the end,
a search that matches nothing still terminates (here: not found), and on the
empty ledger the command hits `IndexError` at position 0. -/
theorem find_next_spec_witness :
    ((0 : Int) ≤ 2 ∧ exTxns ≠ []
      ∧ (find_next exTxns 2 (fun t => decide (t.amount = 999)) = FindRes.notFound
        ∨ ∃ j, find_next exTxns 2 (fun t => decide (t.amount = 999)) = FindRes.found j))
    ∧ find_next [] 0 (fun t => t.cleared) = FindRes.indexError 0 := by
  refine ⟨⟨by decide, by decide, ?_⟩, ?_⟩
  · exact (find_next_spec exTxns 2 (fun t => decide (t.amount = 999)) (by decide)).1
      (by decide)
  · exact (find_next_spec [] 0 (fun t => t.cleared) (by decide)).2 rfl

/-! ### Python string ordering and the category report -/

/-- Code-point lexicographic `<` on char lists: Python's string comparison. -/
def lexLt : List Char → List Char → Bool
  | [], [] => false
  | [], _ :: _ => true
  | _ :: _, [] => false
  | c :: cs, d :: ds => if c < d then true else if d < c then false else lexLt cs ds

/-- Python `a < b` on strings. -/
def pyStrLt (a b : String) : Bool := lexLt a.data b.data

/-- Python `a <= b` on strings (total order: `not (b < a)`). -/
def pyStrLe (a b : String) : Bool := !pyStrLt b a

theorem lexLt_irrefl : ∀ as : List Char, lexLt as as = false := by
  intro as
  induction as with
  | nil => rfl
  | cons c cs ih => simp [lexLt, lt_irrefl, ih]

theorem lexLt_asymm : ∀ as bs : List Char, lexLt as bs = true → lexLt bs as = false := by
  intro as
  induction as with
  | nil =>
    intro bs h
    cases bs with
    | nil => simp [lexLt] at h
    | cons d ds => rfl
  | cons c cs ih =>
    intro bs h
    cases bs with
    | nil => simp [lexLt] at h
    | cons d ds =>
      simp only [lexLt] at h ⊢
      by_cases h1 : c < d
      · rw [if_neg (lt_asymm h1), if_pos h1]
      · rw [if_neg h1] at h
        by_cases h2 : d < c
        · rw [if_pos h2] at h
          simp at h
        · rw [if_neg h2] at h
          rw [if_neg h2, if_neg h1]
          exact ih ds h

theorem lexLt_conn : ∀ as bs : List Char,
    lexLt as bs = false → lexLt bs as = false → as = bs := by
  intro as
  induction as with
  | nil =>
    intro bs h1 h2
    cases bs with
    | nil => rfl
    | cons d ds => simp [lexLt] at h1
  | cons c cs ih =>
    intro bs h1 h2
    cases bs with
    | nil => simp [lexLt] at h2
    | cons d ds =>
      simp only [lexLt] at h1 h2
      by_cases hcd : c < d
      · rw [if_pos hcd] at h1
        simp at h1
      · rw [if_neg hcd] at h1
        by_cases hdc : d < c
        · rw [if_pos hdc] at h2
          simp at h2
        · rw [if_neg hdc] at h1
          rw [if_neg hdc, if_neg hcd] at h2
          have hc : c = d := le_antisymm (not_lt.mp hdc) (not_lt.mp hcd)
          rw [hc, ih ds h1 h2]

theorem lexLt_trans : ∀ as bs cs : List Char,
    lexLt as bs = true → lexLt bs cs = true → lexLt as cs = true := by
  intro as
  induction as with
  | nil =>
    intro bs cs h1 h2
    cases bs with
    | nil => simp [lexLt] at h1
    | cons d ds =>
      cases cs with
      | nil => simp [lexLt] at h2
      | cons e es => rfl
  | cons c cs ih =>
    intro bs cs2 h1 h2
    cases bs with
    | nil => simp [lexLt] at h1
    | cons d ds =>
      cases cs2 with
      | nil => simp [lexLt] at h2
      | cons e es =>
        simp only [lexLt] at h1 h2 ⊢
        by_cases hcd : c < d
        · by_cases hde : d < e
          · rw [if_pos (lt_trans hcd hde)]
          · by_cases hed : e < d
            · rw [if_neg hde, if_pos hed] at h2
              simp at h2
            · have hq : d = e := le_antisymm (not_lt.mp hed) (not_lt.mp hde)
              rw [if_pos (hq ▸ hcd)]
        · rw [if_neg hcd] at h1
          by_cases hdc : d < c
          · rw [if_pos hdc] at h1
            simp at h1
          · rw [if_neg hdc] at h1
            have hq : d = c := le_antisymm (not_lt.mp hcd) (not_lt.mp hdc)
            subst hq
            by_cases hde : d < e
            · rw [if_pos hde]
            · by_cases hed : e < d
              · rw [if_neg hde, if_pos hed] at h2
                simp at h2
              · rw [if_neg hde, if_neg hed] at h2
                rw [if_neg hde, if_neg hed]
                exact ih ds es h1 h2

theorem string_eq_of_data_eq {x y : String} (h : x.data = y.data) : x = y :=
  congrArg String.mk h

theorem pyStrLe_total (x y : String) : pyStrLe x y = true ∨ pyStrLe y x = true := by
  unfold pyStrLe pyStrLt
  cases h : lexLt y.data x.data with
  | false => left; rfl
  | true => right; rw [lexLt_asymm _ _ h]; rfl

theorem pyStrLe_trans {x y z : String} (h1 : pyStrLe x y = true)
    (h2 : pyStrLe y z = true) : pyStrLe x z = true := by
  unfold pyStrLe pyStrLt at h1 h2 ⊢
  cases hzx : lexLt z.data x.data with
  | false => rfl
  | true =>
    exfalso
    cases hyx : lexLt y.data x.data with
    | true => rw [hyx] at h1; simp at h1
    | false =>
      cases hzy : lexLt z.data y.data with
      | true => rw [hzy] at h2; simp at h2
      | false =>
        cases hxy : lexLt x.data y.data with
        | true =>
          have := lexLt_trans _ _ _ hzx hxy
          rw [this] at hzy
          simp at hzy
        | false =>
          have hq : x.data = y.data := lexLt_conn _ _ hxy hyx
          rw [← hq] at hzy
          rw [hzy] at hzx
          simp at hzx

theorem pyStrLe_antisymm {x y : String} (h1 : pyStrLe x y = true)
    (h2 : pyStrLe y x = true) : x = y := by
  unfold pyStrLe pyStrLt at h1 h2
  apply string_eq_of_data_eq
  apply lexLt_conn
  · simpa using h2
  · simpa using h1

theorem pyStrLt_of_le_ne {x y : String} (h1 : pyStrLe x y = true) (h2 : x ≠ y) :
    pyStrLt x y = true := by
  unfold pyStrLe at h1
  unfold pyStrLt at h1 ⊢
  cases hxy : lexLt x.data y.data with
  | true => rfl
  | false =>
    exfalso
    exact h2 (string_eq_of_data_eq (lexLt_conn _ _ hxy (by simpa using h1)))

theorem pyStrLt_asymm {x y : String} (h : pyStrLt x y = true) :
    pyStrLt y x = false := by
  unfold pyStrLt at h ⊢
  exact lexLt_asymm _ _ h

theorem pyStrLt_ne {x y : String} (h : pyStrLt x y = true) : x ≠ y := by
  intro he
  subst he
  unfold pyStrLt at h
  rw [lexLt_irrefl] at h
  simp at h

instance : IsTotal (String × Int) (fun p q => pyStrLe p.1 q.1 = true) :=
  ⟨fun p q => pyStrLe_total p.1 q.1⟩

instance : IsTrans (String × Int) (fun p q => pyStrLe p.1 q.1 = true) :=
  ⟨fun _ _ _ h1 h2 => pyStrLe_trans h1 h2⟩

/-- `cat = t.get("category") or "Uncategorized"`: `None` and the empty
string are falsy, anything else is the category itself. -/
def catKey (t : Txn) : String :=
  match t.category with
  | none => "Uncategorized"
  | some c => if c = "" then "Uncategorized" else c

/-- The two `continue` guards of `category_report`:
`start and t["date"] < start`, `end and t["date"] > end` (a `None` or empty
bound is falsy and filters nothing). -/
def dateSkipped (s e : Option String) (t : Txn) : Bool :=
  (match s with
   | none => false
   | some v => !(decide (v = "")) && pyStrLt t.date v)
  || (match e with
    | none => false
    | some v => !(decide (v = "")) && pyStrLt v t.date)

/-- `totals.setdefault(cat, Decimal("0.00")); totals[cat] += amount` on the
insertion-ordered dict, modelled as an association list. -/
def addToTotals : List (String × Int) → String → Int → List (String × Int)
  | [], k, amt => [(k, amt)]
  | (k2, v) :: rest, k, amt =>
    if k2 = k then (k2, v + amt) :: rest else (k2, v) :: addToTotals rest k amt

/-- The value the dict holds at key `k` (first matching entry, 0 if absent). -/
def totalFor : List (String × Int) → String → Int
  | [], _ => 0
  | (k2, v) :: rest, k => if k2 = k then v else totalFor rest k

/-- `category_report`: accumulate per-category totals over the visible
transactions that pass the date guards, then output
`sorted(totals.items())`; with pairwise-distinct keys, sorting the pairs is
sorting by category name. -/
def category_report (a : Account) (s e : Option String) : List (String × Int) :=
  List.insertionSort (fun p q => pyStrLe p.1 q.1 = true)
    (((Ledger.init a).transactions.filter (fun t => !dateSkipped s e t)).foldl
      (fun acc t => addToTotals acc (catKey t) t.amount) [])

/-- The rows claim C9 says the report covers: the non-deleted transactions
whose date lies within `[s, e]` inclusive. -/
def inRangeTxns (a : Account) (s e : String) : List Txn :=
  (a.transactions.filter (fun t => !t.deleted)).filter
    (fun t => pyStrLe s t.date && pyStrLe t.date e)

theorem totalFor_addToTotals (acc : List (String × Int)) (k k2 : String) (amt : Int) :
    totalFor (addToTotals acc k amt) k2
      = totalFor acc k2 + (if k = k2 then amt else 0) := by
  induction acc with
  | nil =>
    simp only [addToTotals, totalFor]
    by_cases h : k = k2 <;> simp [h]
  | cons p rest ih =>
    obtain ⟨k3, v⟩ := p
    by_cases h3 : k3 = k
    · subst h3
      simp only [addToTotals, if_pos rfl, totalFor]
      by_cases h2 : k3 = k2
      · subst h2
        simp
      · simp [h2]
    · simp only [addToTotals, if_neg h3, totalFor]
      by_cases h2 : k3 = k2
      · subst h2
        have hk : k ≠ k3 := fun hq => h3 hq.symm
        simp [hk]
      · simp [h2, ih]

theorem mem_keys_addToTotals (acc : List (String × Int)) (k k2 : String) (amt : Int) :
    k2 ∈ (addToTotals acc k amt).map Prod.fst
      ↔ (k2 ∈ acc.map Prod.fst ∨ k2 = k) := by
  induction acc with
  | nil => simp [addToTotals]
  | cons p rest ih =>
    obtain ⟨k3, v⟩ := p
    by_cases h3 : k3 = k
    · simp only [addToTotals, if_pos h3, List.map_cons, List.mem_cons]
      subst h3
      tauto
    · simp only [addToTotals, if_neg h3, List.map_cons, List.mem_cons, ih]
      tauto

theorem nodup_keys_addToTotals (acc : List (String × Int)) (k : String) (amt : Int)
    (h : (acc.map Prod.fst).Nodup) :
    ((addToTotals acc k amt).map Prod.fst).Nodup := by
  induction acc with
  | nil => simp [addToTotals]
  | cons p rest ih =>
    obtain ⟨k3, v⟩ := p
    simp only [List.map_cons, List.nodup_cons] at h
    by_cases h3 : k3 = k
    · simp only [addToTotals, if_pos h3, List.map_cons, List.nodup_cons]
      exact h
    · simp only [addToTotals, if_neg h3, List.map_cons, List.nodup_cons]
      refine ⟨?_, ih h.2⟩
      rw [mem_keys_addToTotals]
      rintro (hmem | heq)
      · exact h.1 hmem
      · exact h3 heq

theorem mem_assoc_iff (acc : List (String × Int)) (h : (acc.map Prod.fst).Nodup)
    (k : String) (v : Int) :
    (k, v) ∈ acc ↔ (k ∈ acc.map Prod.fst ∧ v = totalFor acc k) := by
  induction acc with
  | nil => simp [totalFor]
  | cons p rest ih =>
    obtain ⟨k3, v3⟩ := p
    simp only [List.map_cons, List.nodup_cons] at h
    by_cases h3 : k3 = k
    · subst h3
      constructor
      · intro hmem
        rcases List.mem_cons.mp hmem with heq | hmem2
        · cases heq
          exact ⟨by simp, by simp [totalFor]⟩
        · exact absurd (List.mem_map_of_mem Prod.fst hmem2) h.1
      · rintro ⟨_, hv⟩
        have hv2 : v = v3 := by simpa [totalFor] using hv
        subst hv2
        exact List.mem_cons_self _ _
    · simp only [List.mem_cons, List.map_cons, totalFor, if_neg h3, ih h.2]
      constructor
      · rintro (heq | ⟨hk, hv⟩)
        · cases heq
          exact absurd rfl h3
        · exact ⟨Or.inr hk, hv⟩
      · rintro ⟨hk, hv⟩
        rcases hk with heq | hk2
        · exact absurd heq.symm h3
        · exact Or.inr ⟨hk2, hv⟩

theorem totalFor_foldl (ts : List Txn) : ∀ (acc : List (String × Int)) (k : String),
    totalFor (ts.foldl (fun acc t => addToTotals acc (catKey t) t.amount) acc) k
      = totalFor acc k
        + ((ts.filter (fun t => decide (catKey t = k))).map (fun t => t.amount)).sum := by
  induction ts with
  | nil =>
    intro acc k
    simp
  | cons t ts ih =>
    intro acc k
    simp only [List.foldl_cons, List.filter_cons]
    rw [ih, totalFor_addToTotals]
    by_cases hk : catKey t = k
    · have hd : (decide (catKey t = k)) = true := by simp [hk]
      rw [if_pos hd, List.map_cons, List.sum_cons, if_pos hk]
      ring
    · simp [hk]

theorem mem_keys_foldl (ts : List Txn) : ∀ (acc : List (String × Int)) (k : String),
    k ∈ (ts.foldl (fun acc t => addToTotals acc (catKey t) t.amount) acc).map Prod.fst
      ↔ (k ∈ acc.map Prod.fst ∨ k ∈ ts.map catKey) := by
  induction ts with
  | nil =>
    intro acc k
    simp
  | cons t ts ih =>
    intro acc k
    simp only [List.foldl_cons, List.map_cons, List.mem_cons]
    rw [ih, mem_keys_addToTotals]
    tauto

theorem nodup_keys_foldl (ts : List Txn) : ∀ acc : List (String × Int),
    (acc.map Prod.fst).Nodup →
    ((ts.foldl (fun acc t => addToTotals acc (catKey t) t.amount) acc).map
      Prod.fst).Nodup := by
  induction ts with
  | nil => intro acc h; exact h
  | cons t ts ih =>
    intro acc h
    exact ih _ (nodup_keys_addToTotals acc (catKey t) t.amount h)

theorem pairwise_strict_of_sorted_nodup (l : List (String × Int))
    (hs : l.Pairwise (fun p q => pyStrLe p.1 q.1 = true))
    (hn : (l.map Prod.fst).Nodup) :
    l.Pairwise (fun p q => pyStrLt p.1 q.1 = true) := by
  have hne : l.Pairwise (fun p q => p.1 ≠ q.1) := by
    simpa [List.Nodup, List.pairwise_map] using hn
  exact (hs.and hne).imp (fun h => pyStrLt_of_le_ne h.1 h.2)

theorem strictSorted_ext : ∀ (l1 l2 : List (String × Int)),
    l1.Pairwise (fun p q => pyStrLt p.1 q.1 = true) →
    l2.Pairwise (fun p q => pyStrLt p.1 q.1 = true) →
    (∀ p : String × Int, p ∈ l1 ↔ p ∈ l2) → l1 = l2 := by
  intro l1
  induction l1 with
  | nil =>
    intro l2 _ _ hmem
    cases l2 with
    | nil => rfl
    | cons q l2 => exact absurd ((hmem q).mpr (List.mem_cons_self q l2)) (List.not_mem_nil q)
  | cons p l1 ih =>
    intro l2 hs1 hs2 hmem
    cases l2 with
    | nil => exact absurd ((hmem p).mp (List.mem_cons_self p l1)) (List.not_mem_nil p)
    | cons q l2 =>
      have hpq : p = q := by
        rcases List.mem_cons.mp ((hmem p).mp (List.mem_cons_self p l1)) with he | hp2
        · exact he
        · have hqp : pyStrLt q.1 p.1 = true := (List.pairwise_cons.mp hs2).1 p hp2
          rcases List.mem_cons.mp ((hmem q).mpr (List.mem_cons_self q l2)) with he2 | hq2
          · exact he2.symm
          · have hpq2 : pyStrLt p.1 q.1 = true := (List.pairwise_cons.mp hs1).1 q hq2
            rw [pyStrLt_asymm hpq2] at hqp
            simp at hqp
      subst hpq
      congr 1
      apply ih l2 (List.pairwise_cons.mp hs1).2 (List.pairwise_cons.mp hs2).2
      intro x
      constructor
      · intro hx
        rcases List.mem_cons.mp ((hmem x).mp (List.mem_cons.mpr (Or.inr hx))) with he | hx2
        · exfalso
          have hlt := (List.pairwise_cons.mp hs1).1 x hx
          rw [he] at hlt
          exact (pyStrLt_ne hlt) rfl
        · exact hx2
      · intro hx
        rcases List.mem_cons.mp ((hmem x).mpr (List.mem_cons.mpr (Or.inr hx))) with he | hx2
        · exfalso
          have hlt := (List.pairwise_cons.mp hs2).1 x hx
          rw [he] at hlt
          exact (pyStrLt_ne hlt) rfl
        · exact hx2

theorem category_report_filter_eq (c : Account) (s e : String)
    (hs : s ≠ "") (he : e ≠ "") :
    (Ledger.init c).transactions.filter (fun t => !dateSkipped (some s) (some e) t)
      = inRangeTxns c s e := by
  rw [ledger_init_transactions]
  unfold inRangeTxns
  apply List.filter_congr
  intro t ht
  have hs2 : (decide (s = "")) = false := decide_eq_false hs
  have he2 : (decide (e = "")) = false := decide_eq_false he
  simp [dateSkipped, hs2, he2, pyStrLe, Bool.not_or]

/-- Claim C9: with non-empty date bounds, the category report sums amounts
per category over exactly the non-deleted transactions whose date lies
within `[start, end]` inclusive (each row `(k, v)` is a category occurring
among those rows together with the sum of their amounts), the rows come out
sorted by category name, and the whole report is insensitive to the
insertion order of the account's transactions. -/
theorem category_report_spec (a b : Account) (s e : String)
    (hs : s ≠ "") (he : e ≠ "")
    (hperm : List.Perm a.transactions b.transactions) :
    (category_report a (some s) (some e)).Pairwise (fun p q => pyStrLe p.1 q.1 = true)
    ∧ (∀ k v, (k, v) ∈ category_report a (some s) (some e) ↔
        (k ∈ (inRangeTxns a s e).map catKey
          ∧ v = (((inRangeTxns a s e).filter (fun t => decide (catKey t = k))).map
              (fun t => t.amount)).sum))
    ∧ category_report a (some s) (some e) = category_report b (some s) (some e) := by
  have hrep : ∀ c : Account, category_report c (some s) (some e)
      = List.insertionSort (fun p q => pyStrLe p.1 q.1 = true)
          ((inRangeTxns c s e).foldl
            (fun acc t => addToTotals acc (catKey t) t.amount) []) := by
    intro c
    unfold category_report
    rw [category_report_filter_eq c s e hs he]
  have hnodup : ∀ c : Account,
      (((inRangeTxns c s e).foldl
        (fun acc t => addToTotals acc (catKey t) t.amount) []).map Prod.fst).Nodup := by
    intro c
    exact nodup_keys_foldl _ [] (by simp)
  have hsorted : ∀ c : Account, (category_report c (some s) (some e)).Pairwise
      (fun p q => pyStrLe p.1 q.1 = true) := by
    intro c
    rw [hrep c]
    exact List.sorted_insertionSort _ _
  have hmemchar : ∀ c : Account, ∀ k v,
      (k, v) ∈ category_report c (some s) (some e) ↔
      (k ∈ (inRangeTxns c s e).map catKey
        ∧ v = (((inRangeTxns c s e).filter (fun t => decide (catKey t = k))).map
            (fun t => t.amount)).sum) := by
    intro c k v
    rw [hrep c]
    rw [(List.perm_insertionSort _ _).mem_iff]
    rw [mem_assoc_iff _ (hnodup c) k v]
    rw [mem_keys_foldl, totalFor_foldl]
    simp [totalFor]
  have hnodupSorted : ∀ c : Account,
      ((category_report c (some s) (some e)).map Prod.fst).Nodup := by
    intro c
    rw [hrep c]
    have hp := List.perm_insertionSort (fun p q : String × Int => pyStrLe p.1 q.1 = true)
      ((inRangeTxns c s e).foldl (fun acc t => addToTotals acc (catKey t) t.amount) [])
    exact ((hp.map Prod.fst).nodup_iff).mpr (hnodup c)
  refine ⟨hsorted a, hmemchar a, ?_⟩
  have hpr : List.Perm (inRangeTxns a s e) (inRangeTxns b s e) := by
    unfold inRangeTxns
    exact (hperm.filter _).filter _
  apply strictSorted_ext
  · exact pairwise_strict_of_sorted_nodup _ (hsorted a) (hnodupSorted a)
  · exact pairwise_strict_of_sorted_nodup _ (hsorted b) (hnodupSorted b)
  · intro p
    obtain ⟨k, v⟩ := p
    rw [hmemchar a k v, hmemchar b k v]
    constructor
    · rintro ⟨hk, hv⟩
      refine ⟨((hpr.map catKey).mem_iff).mp hk, ?_⟩
      rw [hv]
      exact ((hpr.filter _).map _).sum_eq
    · rintro ⟨hk, hv⟩
      refine ⟨((hpr.map catKey).mem_iff).mpr hk, ?_⟩
      rw [hv]
      exact ((hpr.symm.filter _).map _).sum_eq

def exAccountPerm : Account :=
  { initial_balance := 0, transactions := exTxns.reverse }

/-- Witness for claim C9: concrete non-empty bounds and two accounts whose
transaction lists are permutations (one is the reverse of the other) give
the same category report. -/
theorem category_report_spec_witness :
    (("2024-01-01" : String) ≠ "" ∧ ("2024-12-31" : String) ≠ "")
    ∧ category_report exAccount (some "2024-01-01") (some "2024-12-31")
        = category_report exAccountPerm (some "2024-01-01") (some "2024-12-31") := by
  refine ⟨⟨by decide, by decide⟩, ?_⟩
  exact (category_report_spec exAccount exAccountPerm "2024-01-01" "2024-12-31"
    (by decide) (by decide) (List.reverse_perm exTxns).symm).2.2
